import Mathlib

/-!
Verification of the core signal/operator/engine model of the `nengo-rs`
repository (a discrete-time simulation engine over scalar and n-d array
signals, with sliced views, elementwise/dot operators, probes and a
step scheduler).

Shallow embedding conventions:
* `ndarray::ArrayD<T>` is embedded as `NdArray α`: a shape (list of axis
  sizes) together with an element function from multi-indices (lists of
  naturals) to values.  Only indices inside the shape are meaningful.
* `f64` scalar arithmetic is embedded as exact `Rat` arithmetic; array
  element types are kept generic over a commutative ring.
* Rust panics (including panics inside `ndarray` kernels) are embedded as
  `Except.error` values of the `ShapeError` type.
* The async scheduler (`run_operators`) drives every operator exactly once
  per step, awaiting dependencies which always point to earlier list
  entries; its observable effect on signal state for the configurations
  studied here is the sequential fold of the operator step functions in
  list order, which is how `runStepM` embeds it.  The probe phase runs
  after all operators, each probe appending exactly one snapshot.
-/

/-- An n-dimensional array (embedding of `ndarray::ArrayD<T>`): a shape and
an element function on multi-indices. -/
@[ext]
structure NdArray (α : Type) where
  shape : List Nat
  el : List Nat → α

/-- Membership of a multi-index in a shape: same rank and every coordinate
below the corresponding axis size. -/
def InShapeB : List Nat → List Nat → Bool
  | [], [] => true
  | n :: ns, i :: is => decide (i < n) && InShapeB ns is
  | _, _ => false

/-- One axis of a slice specification, mirroring
`SliceOrIndex::Slice { start, step, end }` with a nonnegative step
(`stop` stands for the Rust field `end`). -/
structure Slice where
  start : Nat
  step : Nat
  stop : Nat
deriving DecidableEq

/-- Number of indices selected on one axis by a slice: the count of k with
`start + k * step < stop` (ndarray slicing semantics for positive step). -/
def countAxis (s : Slice) : Nat :=
  (s.stop - s.start + s.step - 1) / s.step

/-- Shape of the sliced sub-array (`base.slice(slice).shape()`). -/
def sliceShape (sl : List Slice) : List Nat :=
  sl.map countAxis

/-- Map a view multi-index to the corresponding base multi-index
(`start + i * step` on each axis). -/
def mapIdx : List Slice → List Nat → List Nat
  | s :: sl, i :: is => (s.start + i * s.step) :: mapIdx sl is
  | _, _ => []

/-- Inverse of `mapIdx` on slice-image positions: per-axis
`(p - start) / step`. -/
def invIdx : List Slice → List Nat → List Nat
  | s :: sl, p :: ps => ((p - s.start) / s.step) :: invIdx sl ps
  | _, _ => []

/-- Whether a base multi-index lies in the image of the slice (is one of
the positions the sliced view addresses). -/
def inImageB : List Slice → List Nat → Bool
  | [], [] => true
  | s :: sl, p :: ps =>
    (decide (s.start ≤ p) && decide ((p - s.start) % s.step = 0) &&
      decide ((p - s.start) / s.step < countAxis s)) && inImageB sl ps
  | _, _ => false

/-- Reading through a view (`base.slice(slice)` as used by `clone_array`,
`SignalAccess::read` and the probe): element `idx` of the view is element
`mapIdx slice idx` of the base. -/
def readView (base : NdArray α) (sl : List Slice) : NdArray α :=
  ⟨sliceShape sl, fun idx => base.el (mapIdx sl idx)⟩

/-- Writing an array through a view
(`base.slice_mut(slice).assign(src)` in `ArrayRef::assign_array`):
positions in the slice image receive the source value at the inverse
index, all other positions of the base are untouched. -/
def writeView (base : NdArray α) (sl : List Slice) (src : NdArray α) : NdArray α :=
  ⟨base.shape, fun p => if inImageB sl p then src.el (invIdx sl p) else base.el p⟩

/-- `ArrayRef::assign_array` on an owned buffer (`dst.assign(src)`): the
destination keeps its shape and takes the source's elements; a 0-d source
is broadcast to every position. -/
def assignArray (dst src : NdArray α) : NdArray α :=
  ⟨dst.shape, match src.shape with
    | [] => fun _ => src.el []
    | _ => src.el⟩

/-- Buffer shape allocated by `ArraySignal::new`: the template's shape,
with a 0-d template promoted to shape `[1]`. -/
def promoteShape (s : List Nat) : List Nat :=
  match s with
  | [] => [1]
  | x => x

/-- Embedding of `ScalarSignal<T>`: current value plus the immutable
initial value. -/
structure ScalarSignal (α : Type) where
  value : α
  initial_value : α

/-- `ScalarSignal::reset`: value ← initial_value. -/
def ScalarSignal.reset (s : ScalarSignal α) : ScalarSignal α :=
  { s with value := s.initial_value }

/-- Embedding of an owned `ArraySignal<T>`: the owned buffer plus the
optional initial-value template used by `reset`. -/
structure ArraySignal (α : Type) where
  buffer : NdArray α
  initial_value : Option (NdArray α)

/-- `ArraySignal::new`: allocates an uninitialized buffer of the
template's (promoted) shape — the `junkEl` parameter stands for the
arbitrary contents of `Array::uninitialized` — and stores the template
as `initial_value`.  The template is NOT copied into the buffer. -/
def ArraySignal.new (template : NdArray α) (junkEl : List Nat → α) : ArraySignal α :=
  ⟨⟨promoteShape template.shape, junkEl⟩, some template⟩

/-- `ArraySignal::reset` for an owned signal: if an initial-value template
is present, assign it into the buffer; otherwise do nothing. -/
def ArraySignal.reset (s : ArraySignal α) : ArraySignal α :=
  match s.initial_value with
  | none => s
  | some t => { s with buffer := assignArray s.buffer t }

/-- Embedding of a view `ArraySignal<T>` (buffer variant
`ArrayRef::View(base, slice)`): the base signal's owned buffer, the slice
specification, and the optional initial-value template. -/
structure ArraySignalView (α : Type) where
  base : NdArray α
  slices : List Slice
  initial_value : Option (NdArray α)

/-- `ArraySignal::reset` for a view signal: if an initial-value template is
present, `assign_array` routes it through the slice into the base buffer
(`base.slice_mut(slice).assign(src)`); otherwise do nothing. -/
def ArraySignalView.reset (s : ArraySignalView α) : ArraySignalView α :=
  match s.initial_value with
  | none => s
  | some t => { s with base := writeView s.base s.slices t }

/-- `mul_view` from `signal.rs`: elementwise product with scalar
broadcasting — an operand of shape `[1]` is broadcast over the other. -/
def mul_view [Mul α] (lhs rhs : NdArray α) : NdArray α :=
  if lhs.shape = [1] then
    if rhs.shape = [1] then ⟨[1], fun i => lhs.el i * rhs.el i⟩
    else ⟨rhs.shape, fun i => rhs.el i * lhs.el [0]⟩
  else if rhs.shape = [1] then ⟨lhs.shape, fun i => lhs.el i * rhs.el [0]⟩
  else ⟨lhs.shape, fun i => lhs.el i * rhs.el i⟩

/-- `ElementwiseInc::step`: `target += left * right` where the product is
computed by `mul_view` (the `+=` keeps the target's shape; shapes are
assumed compatible, as in the source where a mismatch panics). -/
def elementwiseIncStep [Mul α] [Add α] (target left right : NdArray α) : NdArray α :=
  ⟨target.shape, fun i => target.el i + (mul_view left right).el i⟩

/-- Failure values for the dot-product kernels; the source panics with the
corresponding messages (`"Only matrix-vector multiplies supported."`,
`"Invalid array dimensionality."`, and the `ndarray` length assertion). -/
inductive ShapeError
  | onlyMatrixVector
  | invalidDimensionality
  | dimMismatch
deriving DecidableEq

/-- `ArrayRef::dot`: the right operand must be rank 1; a rank-1 left
operand gives a shape-`[1]` scalar result, a rank-2 left operand gives a
matrix·vector product; any other rank fails.  Length mismatches fail
inside the `ndarray` kernels. -/
def dot [Mul α] [AddCommMonoid α] (lhs rhs : NdArray α) : Except ShapeError (NdArray α) :=
  match rhs.shape with
  | [n] =>
    match lhs.shape with
    | [m] =>
      if m = n then
        .ok ⟨[1], fun _ => ((List.range n).map fun j => lhs.el [j] * rhs.el [j]).sum⟩
      else
        .error .dimMismatch
    | [rows, cols] =>
      if cols = n then
        .ok ⟨[rows], fun i => ((List.range n).map fun j => lhs.el [i.headD 0, j] * rhs.el [j]).sum⟩
      else
        .error .dimMismatch
    | _ => .error .invalidDimensionality
  | _ => .error .onlyMatrixVector

/-- `DotInc::step`: `target += left.dot(right)`; the `+=` keeps the
target's shape. -/
def dotIncStep [Mul α] [AddCommMonoid α] (target left right : NdArray α) :
    Except ShapeError (NdArray α) :=
  (dot left right).map fun d => ⟨target.shape, fun i => target.el i + d.el i⟩

/-- Wrap-around bound of the `u64` step counter. -/
def u64size : Nat := 2 ^ 64

/-- State touched by the `TimeUpdate` operator: the `u64` step counter and
the `f64` time signal (embedded as an exact rational). -/
structure TimeState where
  step : Nat
  time : Rat
deriving DecidableEq

/-- `TimeUpdate::step`: `step_target += 1` (u64, wrapping);
`time_target = step_target as f64 * dt`. -/
def timeUpdateStep (dt : Rat) (s : TimeState) : TimeState :=
  let st := (s.step + 1) % u64size
  ⟨st, (st : Rat) * dt⟩

/-- Embedding of `SignalProbe`: the target is represented by its read
function out of the engine's signal state, `data` is the append-only list
of snapshots. -/
structure SignalProbe (σ ω : Type) where
  target : σ → ω
  data : List ω

/-- `SignalProbe::probe`: append a snapshot of the target's current value
(`self.data.push(self.signal.read().clone())`). -/
def SignalProbe.probe (s : σ) (p : SignalProbe σ ω) : SignalProbe σ ω :=
  { p with data := p.data ++ [p.target s] }

/-- Embedding of `Engine`: the signal state, the frozen operator list
(each operator acting as its `step()` state transformer) and the frozen
probe list. -/
structure EngineM (σ ω : Type) where
  sig : σ
  operators : List (σ → σ)
  probes : List (SignalProbe σ ω)

/-- `Engine::run_step` / `run_step_async`: every operator steps exactly
once (`run_operators` drives the dependency DAG; its observable effect on
the signal state is the fold of the step functions, dependencies always
pointing at earlier list entries), then the probe phase samples every
probe once. -/
def runStepM (e : EngineM σ ω) : EngineM σ ω :=
  let s := e.operators.foldl (fun s f => f s) e.sig
  { e with sig := s, probes := e.probes.map (SignalProbe.probe s) }

/-- `Engine::run_steps`: n sequential `run_step()` calls. -/
def runStepsM : Nat → EngineM σ ω → EngineM σ ω
  | 0, e => e
  | n + 1, e => runStepsM n (runStepM e)

/-- A fallible operator: its `step()` either completes or fails (panics).
Mirrors the fact that an operator panic propagates out of
`create_future`'s `operator.step()` call. -/
def FallibleOp (σ : Type) : Type := σ → Except ShapeError σ

/-- The operator phase of one step with fallible operators: the shared
per-operator futures all complete only when every `step()` returns; a
panic anywhere propagates out of the awaited `FuturesOrdered`, aborting
the step. -/
def runOperatorsE (ops : List (FallibleOp σ)) (s : σ) : Except ShapeError σ :=
  match ops with
  | [] => .ok s
  | f :: fs => (f s).bind (runOperatorsE fs)

/-- `Engine::run_step_async` with fallible operators: the probe phase runs
only after the operator phase completes; on failure the panic propagates
out of the async task before any probe is sampled. -/
def runStepAsyncE (ops : List (FallibleOp σ)) (probes : List (SignalProbe σ ω)) (s : σ) :
    Except ShapeError (σ × List (SignalProbe σ ω)) :=
  (runOperatorsE ops s).map fun s' => (s', probes.map (SignalProbe.probe s'))

/-- The state of the Event after `notify_when_done(fut, is_done)` has been
driven: `is_done.set()` is sequenced after `fut.await`, so the Event is
set exactly when the task completed without failing; a panic unwinds
before `set()` runs. -/
def eventAfterTask (fut : Except ShapeError β) : Bool :=
  match fut with
  | .ok _ => true
  | .error _ => false

/-- What `run_threaded` gives back to the caller: `is_done.wait()` returns
(and with it `run_step()`) exactly when the Event was set; when the task
panicked the Event is never set and the caller stays blocked (`none`). -/
def runThreadedResult (fut : Except ShapeError β) : Option β :=
  match fut with
  | .ok b => some b
  | .error _ => none

/-- `offset_to_multiindex` from `binding/signal.rs`: successive truncating
integer division of the element offset by the base strides, carrying the
remainder to later axes (`isize` arithmetic embedded as `Int` with
truncating division). -/
def offset_to_multiindex : Int → List Int → List Int
  | _, [] => []
  | offset, d :: ds => offset.tdiv d :: offset_to_multiindex (offset.tmod d) ds

/-- `strides_to_steps` from `binding/signal.rs`: per-axis truncating
division of the view strides by the base strides. -/
def strides_to_steps (strides baseStrides : List Int) : List Int :=
  List.zipWith (fun a b => a.tdiv b) strides baseStrides

/-- The per-axis `{start, step, end}` triples `PySignalArrayViewF64::new`
builds from the native array-view descriptor: starts from
`offset_to_multiindex`, steps from `strides_to_steps`, and
`end = min(start + step * size, base_size)`. -/
def viewSlices (offset : Int) (strides shape baseStrides baseShape : List Int) :
    List (Int × Int × Int) :=
  ((((offset_to_multiindex offset baseStrides).zip shape).zip
      (strides_to_steps strides baseStrides)).zip baseShape).map
    fun p => (p.1.1.1, p.1.2, min (p.1.1.1 + p.1.2 * p.1.1.2) p.2)

/-- Concrete base signal contents `[0, 1, 0, 2]` of shape `[4]` (the §8
view scenario). -/
def exBase : NdArray Int := ⟨[4], fun p => [0, 1, 0, 2].getD (p.headD 0) 0⟩

/-- Concrete slice `{start: 1, step: 2, end: 4}`. -/
def exSlices : List Slice := [⟨1, 2, 4⟩]

/-- Concrete array `[9, 9]` written through the view. -/
def exNines : NdArray Int := ⟨[2], fun _ => 9⟩

/-- Concrete target `[1, 1]`. -/
def exTarget : NdArray Int := ⟨[2], fun _ => 1⟩

/-- Concrete left operand `[2, 3]`. -/
def exLeft : NdArray Int := ⟨[2], fun i => [2, 3].getD (i.headD 0) 0⟩

/-- Concrete broadcast left operand `[2]` of shape `[1]`. -/
def exLeftScalar : NdArray Int := ⟨[1], fun _ => 2⟩

/-- Concrete right operand `[4, 5]`. -/
def exRight : NdArray Int := ⟨[2], fun i => [4, 5].getD (i.headD 0) 0⟩

/-- Concrete matrix `[[2, 3], [4, 5]]` of shape `[2, 2]`. -/
def exMatrix : NdArray Int :=
  ⟨[2, 2], fun i => ([[2, 3], [4, 5]].getD (i.getD 0 0) []).getD (i.getD 1 0) 0⟩

/-- Concrete vector `[6, 7]`. -/
def exVec : NdArray Int := ⟨[2], fun i => [6, 7].getD (i.headD 0) 0⟩

/-- A fallible operator whose `step()` always panics. -/
def exFailingOp : FallibleOp Nat := fun _ => .error .dimMismatch

/-! ## Helper lemmas -/

theorem runStepsM_single_op (n : Nat) (f : σ → σ) :
    ∀ (s : σ) (ps : List (SignalProbe σ ω)),
      (runStepsM n ⟨s, [f], ps⟩).sig = f^[n] s := by
  induction n with
  | zero => intro s ps; rfl
  | succ n ih =>
    intro s ps
    have h : runStepsM (n + 1) (⟨s, [f], ps⟩ : EngineM σ ω) =
        runStepsM n (runStepM ⟨s, [f], ps⟩) := rfl
    rw [h]
    have h2 : runStepM (⟨s, [f], ps⟩ : EngineM σ ω) =
        ⟨f s, [f], ps.map (SignalProbe.probe (f s))⟩ := rfl
    rw [h2, ih, Function.iterate_succ_apply]

theorem timeUpdate_iterate (dt : Rat) :
    ∀ n : Nat, (timeUpdateStep dt)^[n] ⟨0, 0⟩ =
      ⟨n % u64size, ((n % u64size : Nat) : Rat) * dt⟩ := by
  intro n
  induction n with
  | zero => simp [TimeState.mk.injEq, Nat.zero_mod]
  | succ n ih =>
    rw [Function.iterate_succ_apply', ih]
    have hstep : ((n % u64size) + 1) % u64size = (n + 1) % u64size := by
      conv_rhs => rw [Nat.add_mod]
      have h1 : 1 % u64size = 1 := by norm_num [u64size]
      rw [h1]
    simp only [timeUpdateStep, hstep]

theorem runStepM_probe_lengths (e : EngineM σ ω) :
    (runStepM e).probes.map (fun p => p.data.length) =
      e.probes.map (fun p => p.data.length + 1) := by
  simp [runStepM, SignalProbe.probe, List.map_map, Function.comp_def]

/-! ## C1: TimeUpdate step and time targets -/

/-- Claim C1: for a TimeUpdate operator with timestep dt whose step_target
and time_target start at 0 and 0.0, after n completed run_step() calls
(n representable in the u64 step counter) step_target reads exactly n and
time_target reads exactly (n as f64) * dt. -/
theorem timeUpdate_run_steps (dt : Rat) (n : Nat) (ps : List (SignalProbe TimeState Unit))
    (h : n < u64size) :
    (runStepsM n ⟨⟨0, 0⟩, [timeUpdateStep dt], ps⟩).sig = ⟨n, (n : Rat) * dt⟩ := by
  rw [runStepsM_single_op, timeUpdate_iterate, Nat.mod_eq_of_lt h]

/-- Witness for C1: with dt = 0.001, after run_steps(3) the step target
reads 3 and the time target reads 0.003. -/
theorem timeUpdate_run_steps_witness :
    (runStepsM 3 ⟨⟨0, 0⟩, [timeUpdateStep 0.001], []⟩ : EngineM TimeState Unit).sig.step = 3 ∧
    (runStepsM 3 ⟨⟨0, 0⟩, [timeUpdateStep 0.001], []⟩ : EngineM TimeState Unit).sig.time = 0.003 := by
  have h := timeUpdate_run_steps 0.001 3 [] (by norm_num [u64size])
  rw [h]
  norm_num

/-! ## C8: probe sample counts -/

/-- Claim C8: after n run_step() calls, every probe holds exactly n
samples more than it held before the calls (each run_step appends exactly
one snapshot to each probe). -/
theorem probe_length_run_steps (n : Nat) :
    ∀ e : EngineM σ ω, (runStepsM n e).probes.map (fun p => p.data.length) =
      e.probes.map (fun p => p.data.length + n) := by
  induction n with
  | zero => intro e; simp [runStepsM]
  | succ n ih =>
    intro e
    have h : runStepsM (n + 1) e = runStepsM n (runStepM e) := rfl
    rw [h, ih (runStepM e)]
    simp [runStepM, SignalProbe.probe, List.map_map, Function.comp_def,
      Nat.add_assoc, Nat.add_comm, Nat.add_left_comm]

/-! ## C4: operator failure and the Event -/

/-- Counterexample to claim C4 as stated: with a single operator whose
step() fails, the operator phase fails, yet the Event is NOT set (the
claim asserts it is set so that run_step() returns). -/
theorem run_step_failure_counterexample :
    (runOperatorsE [exFailingOp] 0).isOk = false ∧
    eventAfterTask (runStepAsyncE [exFailingOp] ([] : List (SignalProbe Nat Unit)) 0) = false := by
  exact ⟨rfl, rfl⟩

/-- Claim C4 (amended): if any operator's step() fails during run_step(),
the current step aborts before the probe phase, the Event is never set,
and the caller blocked in run_step() never unblocks (no error is
surfaced). -/
theorem step_failure_event_not_set (ops : List (FallibleOp σ))
    (probes : List (SignalProbe σ ω)) (s : σ)
    (h : (runOperatorsE ops s).isOk = false) :
    eventAfterTask (runStepAsyncE ops probes s) = false ∧
    runThreadedResult (runStepAsyncE ops probes s) = none := by
  cases hE : runOperatorsE ops s with
  | ok v => rw [hE] at h; simp [Except.isOk, Except.toBool] at h
  | error e => simp [runStepAsyncE, hE, Except.map, eventAfterTask, runThreadedResult]

/-- Witness for the amended C4 at a concrete failing operator. -/
theorem step_failure_event_not_set_witness :
    eventAfterTask (runStepAsyncE [exFailingOp] ([] : List (SignalProbe Nat Unit)) 0) = false ∧
    runThreadedResult (runStepAsyncE [exFailingOp] ([] : List (SignalProbe Nat Unit)) 0) = none := by
  exact step_failure_event_not_set [exFailingOp] [] 0 rfl

/-! ## C5: reset idempotence -/

theorem writeView_writeView (b : NdArray α) (sl : List Slice) (v : NdArray α) :
    writeView (writeView b sl v) sl v = writeView b sl v := by
  unfold writeView
  refine NdArray.ext rfl ?_
  funext p
  by_cases h : inImageB sl p <;> simp [h]

/-- Claim C5: for every signal (scalar or array, owned or view), calling
reset() twice yields exactly the same signal state as calling it once. -/
theorem reset_idempotent (sc : ScalarSignal α) (ao : ArraySignal α) (av : ArraySignalView α) :
    sc.reset.reset = sc.reset ∧ ao.reset.reset = ao.reset ∧ av.reset.reset = av.reset := by
  refine ⟨rfl, ?_, ?_⟩
  · cases ao with
    | mk buffer iv => cases iv <;> rfl
  · cases av with
    | mk base slices iv =>
      cases iv with
      | none => rfl
      | some t =>
        show ArraySignalView.reset ⟨writeView base slices t, slices, some t⟩ = _
        unfold ArraySignalView.reset
        simp [writeView_writeView]

/-! ## Slicing lemmas -/

theorem countAxis_lt_iff (s : Slice) (h : 0 < s.step) (i : Nat) :
    i < countAxis s ↔ s.start + i * s.step < s.stop := by
  unfold countAxis
  rw [Nat.lt_iff_add_one_le, Nat.le_div_iff_mul_le h]
  have he : (i + 1) * s.step = i * s.step + s.step := by ring
  rw [he]
  generalize i * s.step = a
  omega

theorem InShapeB_length : ∀ {ns is : List Nat}, InShapeB ns is = true → is.length = ns.length := by
  intro ns
  induction ns with
  | nil =>
    intro is h
    cases is with
    | nil => rfl
    | cons i is' => simp [InShapeB] at h
  | cons n ns ih =>
    intro is h
    cases is with
    | nil => simp [InShapeB] at h
    | cons i is' =>
      simp only [InShapeB, Bool.and_eq_true, decide_eq_true_eq] at h
      simp [ih h.2]

theorem inImageB_mapIdx : ∀ (sl : List Slice) (idx : List Nat),
    (∀ s ∈ sl, 0 < s.step) → InShapeB (sliceShape sl) idx = true →
    inImageB sl (mapIdx sl idx) = true := by
  intro sl
  induction sl with
  | nil =>
    intro idx _ h
    cases idx with
    | nil => rfl
    | cons i is => simp [sliceShape, InShapeB] at h
  | cons s sl ih =>
    intro idx hstep h
    cases idx with
    | nil => simp [sliceShape, InShapeB] at h
    | cons i is =>
      have hs : 0 < s.step := hstep s (List.mem_cons_self s sl)
      simp only [sliceShape, List.map_cons, InShapeB, Bool.and_eq_true,
        decide_eq_true_eq] at h
      have htail : ∀ s' ∈ sl, 0 < s'.step := fun s' hm => hstep s' (List.mem_cons_of_mem _ hm)
      show inImageB (s :: sl) ((s.start + i * s.step) :: mapIdx sl is) = true
      simp only [inImageB, Bool.and_eq_true, decide_eq_true_eq]
      refine ⟨⟨⟨Nat.le_add_right _ _, ?_⟩, ?_⟩, ih is htail h.2⟩
      · rw [Nat.add_sub_cancel_left, Nat.mul_mod_left]
      · rw [Nat.add_sub_cancel_left, Nat.mul_div_cancel _ hs]
        exact h.1

theorem invIdx_mapIdx : ∀ (sl : List Slice) (idx : List Nat),
    (∀ s ∈ sl, 0 < s.step) → idx.length = sl.length →
    invIdx sl (mapIdx sl idx) = idx := by
  intro sl
  induction sl with
  | nil =>
    intro idx _ hlen
    cases idx with
    | nil => rfl
    | cons i is => simp at hlen
  | cons s sl ih =>
    intro idx hstep hlen
    cases idx with
    | nil => simp at hlen
    | cons i is =>
      have hs : 0 < s.step := hstep s (List.mem_cons_self s sl)
      have htail : ∀ s' ∈ sl, 0 < s'.step := fun s' hm => hstep s' (List.mem_cons_of_mem _ hm)
      show ((s.start + i * s.step - s.start) / s.step) :: invIdx sl (mapIdx sl is) = i :: is
      rw [Nat.add_sub_cancel_left, Nat.mul_div_cancel _ hs,
        ih is htail (by simpa using hlen)]

/-! ## C6: view coherence -/

/-- Claim C6: for an array view over an owned base, reading the view gives
the base at the slice positions, a write through the view is immediately
visible at the corresponding base positions (and through the view), and
base positions outside the slice image are untouched. -/
theorem view_coherence (base : NdArray α) (sl : List Slice) (v : NdArray α) (idx : List Nat)
    (hstep : ∀ s ∈ sl, 0 < s.step) (hidx : InShapeB (sliceShape sl) idx = true) :
    (readView base sl).el idx = base.el (mapIdx sl idx) ∧
    (writeView base sl v).el (mapIdx sl idx) = v.el idx ∧
    (readView (writeView base sl v) sl).el idx = v.el idx ∧
    (∀ p, inImageB sl p = false → (writeView base sl v).el p = base.el p) ∧
    (readView base sl).shape = sliceShape sl := by
  have hlen : idx.length = sl.length := by
    have h1 := InShapeB_length hidx
    simpa [sliceShape] using h1
  have hmem := inImageB_mapIdx sl idx hstep hidx
  have hinv := invIdx_mapIdx sl idx hstep hlen
  refine ⟨rfl, ?_, ?_, ?_, rfl⟩
  · simp [writeView, hmem, hinv]
  · simp [readView, writeView, hmem, hinv]
  · intro p hp
    simp [writeView, hp]

/-- Witness for C6: base `[0,1,0,2]` with slice `{start:1, step:2, end:4}`:
the view reads `[1,2]`; writing `[9,9]` through the view makes the base
read `[0,9,0,9]`. -/
theorem view_coherence_witness :
    (readView exBase exSlices).el [0] = 1 ∧ (readView exBase exSlices).el [1] = 2 ∧
    (readView exBase exSlices).shape = [2] ∧
    (writeView exBase exSlices exNines).el [0] = 0 ∧
    (writeView exBase exSlices exNines).el [1] = 9 ∧
    (writeView exBase exSlices exNines).el [2] = 0 ∧
    (writeView exBase exSlices exNines).el [3] = 9 ∧
    (readView (writeView exBase exSlices exNines) exSlices).el [1] = exNines.el [1] := by
  refine ⟨by decide, by decide, by decide, by decide, by decide, by decide, by decide, ?_⟩
  exact (view_coherence exBase exSlices exNines [1] (by decide) (by decide)).2.2.1

/-! ## C9: view reset -/

/-- Claim C9: for an array view signal, reset() leaves the base unchanged
unless an initial-value template was provided at construction, in which
case reset() assigns the template into the sliced region of the base and
leaves positions outside the slice image untouched. -/
theorem arrayView_reset_spec (base : NdArray α) (sl : List Slice) (t : NdArray α)
    (idx : List Nat) :
    (ArraySignalView.reset ⟨base, sl, none⟩ = ⟨base, sl, none⟩) ∧
    ((∀ s ∈ sl, 0 < s.step) → InShapeB (sliceShape sl) idx = true →
      (ArraySignalView.reset ⟨base, sl, some t⟩).base.el (mapIdx sl idx) = t.el idx) ∧
    (∀ p, inImageB sl p = false →
      (ArraySignalView.reset ⟨base, sl, some t⟩).base.el p = base.el p) ∧
    (ArraySignalView.reset ⟨base, sl, some t⟩).base.shape = base.shape := by
  refine ⟨rfl, ?_, ?_, rfl⟩
  · intro hstep hidx
    have hlen : idx.length = sl.length := by
      have h1 := InShapeB_length hidx
      simpa [sliceShape] using h1
    show (writeView base sl t).el (mapIdx sl idx) = t.el idx
    simp [writeView, inImageB_mapIdx sl idx hstep hidx, invIdx_mapIdx sl idx hstep hlen]
  · intro p hp
    show (writeView base sl t).el p = base.el p
    simp [writeView, hp]

/-! ## C2: ElementwiseInc -/

theorem InShapeB_one {i : List Nat} (h : InShapeB [1] i = true) : i = [0] := by
  cases i with
  | nil => simp [InShapeB] at h
  | cons a as =>
    cases as with
    | nil =>
      simp only [InShapeB, Bool.and_eq_true, decide_eq_true_eq] at h
      have ha : a = 0 := by omega
      rw [ha]
    | cons b bs => simp [InShapeB] at h

/-- Claim C2: one ElementwiseInc step performs
target ← target + (left ⊙ right) elementwise, broadcasting an operand of
shape `[1]` over the other operand's shape, and keeps the target's
shape. -/
theorem elementwiseInc_step_spec [CommRing α] (target left right : NdArray α) (i : List Nat)
    (hi : InShapeB (mul_view left right).shape i = true) :
    (elementwiseIncStep target left right).shape = target.shape ∧
    (elementwiseIncStep target left right).el i =
      target.el i + left.el (if left.shape = [1] then [0] else i) *
        right.el (if right.shape = [1] then [0] else i) := by
  refine ⟨rfl, ?_⟩
  by_cases hl : left.shape = [1] <;> by_cases hr : right.shape = [1]
  · rw [mul_view, if_pos hl, if_pos hr] at hi
    have hi0 : i = [0] := InShapeB_one hi
    simp [elementwiseIncStep, mul_view, hl, hr, hi0]
  · simp [elementwiseIncStep, mul_view, hl, hr, mul_comm]
  · simp [elementwiseIncStep, mul_view, hl, hr]
  · simp [elementwiseIncStep, mul_view, hl, hr]

/-- Witness for C2: target=[1,1], left=[2,3], right=[4,5] gives [9,16]
after one step; with broadcast left=[2] it gives [9,11]. -/
theorem elementwiseInc_step_spec_witness :
    (elementwiseIncStep exTarget exLeft exRight).el [0] = 9 ∧
    (elementwiseIncStep exTarget exLeft exRight).el [1] = 16 ∧
    (elementwiseIncStep exTarget exLeftScalar exRight).el [0] = 9 ∧
    (elementwiseIncStep exTarget exLeftScalar exRight).el [1] = 11 ∧
    (elementwiseIncStep exTarget exLeft exRight).shape = [2] := by
  have h := elementwiseInc_step_spec exTarget exLeft exRight [0] (by decide)
  exact ⟨by decide, by decide, by decide, by decide, h.1⟩

/-! ## C3: DotInc -/

/-- Claim C3: one DotInc step performs target ← target + (left · right),
supporting vector·vector → scalar (shape `[1]`) and matrix·vector →
vector; for any other operand ranks the step fails with a ShapeError. -/
theorem dotInc_step_spec [CommRing α] (target left right : NdArray α) :
    (∀ n, left.shape = [n] → right.shape = [n] →
      ∃ d, dotIncStep target left right = .ok d ∧ d.shape = target.shape ∧
        ∀ i, d.el i = target.el i +
          ((List.range n).map fun j => left.el [j] * right.el [j]).sum) ∧
    (∀ rows cols, left.shape = [rows, cols] → right.shape = [cols] →
      ∃ d, dotIncStep target left right = .ok d ∧ d.shape = target.shape ∧
        ∀ i, d.el i = target.el i +
          ((List.range cols).map fun j => left.el [i.headD 0, j] * right.el [j]).sum) ∧
    (((left.shape.length ≠ 1 ∧ left.shape.length ≠ 2) ∨ right.shape.length ≠ 1) →
      (dotIncStep target left right).isOk = false) := by
  refine ⟨?_, ?_, ?_⟩
  · intro n h1 h2
    have hd : dotIncStep target left right = .ok ⟨target.shape, fun i =>
        target.el i + ((List.range n).map fun j => left.el [j] * right.el [j]).sum⟩ := by
      simp [dotIncStep, dot, h1, h2, Except.map]
    exact ⟨_, hd, rfl, fun i => rfl⟩
  · intro rows cols h1 h2
    have hd : dotIncStep target left right = .ok ⟨target.shape, fun i =>
        target.el i + ((List.range cols).map fun j => left.el [i.headD 0, j] * right.el [j]).sum⟩ := by
      simp [dotIncStep, dot, h1, h2, Except.map]
    exact ⟨_, hd, rfl, fun i => rfl⟩
  · intro h
    cases hR : right.shape with
    | nil => simp [dotIncStep, dot, hR, Except.map, Except.isOk, Except.toBool]
    | cons a as =>
      cases as with
      | cons b bs => simp [dotIncStep, dot, hR, Except.map, Except.isOk, Except.toBool]
      | nil =>
        rcases h with ⟨h1, h2⟩ | h3
        · cases hL : left.shape with
          | nil => simp [dotIncStep, dot, hR, hL, Except.map, Except.isOk, Except.toBool]
          | cons c cs =>
            cases cs with
            | nil => exact absurd (by rw [hL]; rfl) h1
            | cons d ds =>
              cases ds with
              | nil => exact absurd (by rw [hL]; rfl) h2
              | cons e es =>
                simp [dotIncStep, dot, hR, hL, Except.map, Except.isOk, Except.toBool]
        · exact absurd (by rw [hR]; rfl) h3

/-- Witness for C3: target=[1,1], left=[[2,3],[4,5]], right=[6,7] steps to
[34,60]; with the operands swapped (right of rank 2) the step fails. -/
theorem dotInc_step_spec_witness :
    ((dotIncStep exTarget exMatrix exVec).map fun d => (d.shape, d.el [0], d.el [1])) =
      .ok ([2], 34, 60) ∧
    (dotIncStep exTarget exVec exMatrix).isOk = false := by
  constructor
  · obtain ⟨d, hd, hsh, hel⟩ := (dotInc_step_spec exTarget exMatrix exVec).2.1 2 2 rfl rfl
    rw [hd]
    simp only [Except.map]
    rw [hsh, hel [0], hel [1]]
    refine congrArg Except.ok ?_
    decide
  · exact (dotInc_step_spec exTarget exVec exMatrix).2.2 (Or.inr (by decide))

/-! ## C7: slice-spec conversion -/

/-- Claim C7: the conversion from a native array-view descriptor to
per-axis {start, step, end} slices computes the start by successive
truncating division of the offset by the base strides carrying the
remainder, the step as stride / base_stride, and
end = min(start + step * shape, base_shape); concretely offset=10 with
base strides [8,4,1] gives multi-index [1,0,2], and strides
[480,192,192,24] over base strides [480,96,48,8] give steps [1,2,4,3]. -/
theorem view_slice_conversion :
    (∀ (off d : Int) (ds : List Int),
      offset_to_multiindex off (d :: ds) =
        off.tdiv d :: offset_to_multiindex (off.tmod d) ds) ∧
    (∀ (strds bstrds : List Int) (st b : Int),
      strides_to_steps (st :: strds) (b :: bstrds) =
        st.tdiv b :: strides_to_steps strds bstrds) ∧
    (∀ (off st sz b bn : Int) (sts szs bs bns : List Int),
      viewSlices off (st :: sts) (sz :: szs) (b :: bs) (bn :: bns) =
        (off.tdiv b, st.tdiv b, min (off.tdiv b + st.tdiv b * sz) bn) ::
          viewSlices (off.tmod b) sts szs bs bns) ∧
    (∀ (off : Int) (sts szs bns : List Int), viewSlices off sts szs [] bns = []) ∧
    offset_to_multiindex 10 [8, 4, 1] = [1, 0, 2] ∧
    strides_to_steps [480, 192, 192, 24] [480, 96, 48, 8] = [1, 2, 4, 3] := by
  refine ⟨fun off d ds => rfl, fun strds bstrds st b => rfl, fun off st sz b bn sts szs bs bns => rfl,
    ?_, by decide, by decide⟩
  intro off sts szs bns
  simp [viewSlices, offset_to_multiindex, strides_to_steps]

/-! ## C10: owned array signal construction -/

/-- Claim C10: constructing an owned array signal allocates a buffer of
the template's shape (a 0-d template promoted to `[1]`) without copying
the template; the buffer holds the uninitialized contents until reset()
copies the template in, so read() equals the template only after
reset(). -/
theorem arraySignal_new_reset_spec (t : NdArray Rat) (junkEl : List Nat → Rat) :
    (ArraySignal.new t junkEl).buffer.shape = promoteShape t.shape ∧
    (ArraySignal.new t junkEl).buffer.el = junkEl ∧
    (∀ i, (ArraySignal.new t junkEl).reset.buffer.el i =
      (if t.shape = [] then t.el [] else t.el i)) ∧
    (ArraySignal.new t junkEl).reset.buffer.shape = promoteShape t.shape ∧
    (∃ j, (ArraySignal.new t j).buffer.el ≠
      fun i => (if t.shape = [] then t.el [] else t.el i)) := by
  refine ⟨rfl, rfl, ?_, rfl, ?_⟩
  · intro i
    show (assignArray (ArraySignal.new t junkEl).buffer t).el i = _
    unfold assignArray
    cases t.shape <;> simp
  · refine ⟨fun i => (if t.shape = [] then t.el [] else t.el i) + 1, fun h => ?_⟩
    have h0 := congrFun h [0]
    simp only [ArraySignal.new] at h0
    exact absurd h0 (by simp)
